import Mathlib

/-!
Verification of the label-normalization and placeholder-substitution core of
the resume-tool web application (`rm app/main.py`).

The embedding models Python strings as Lean `String` (a structure over
`List Char`), Python dicts over string keys as association lists in insertion
order, and the docx object tree as nested lists of paragraphs, where a
paragraph is the list of the texts of its runs.  All definitions are
computable, so concrete runs of the embedded code can be settled by `decide`.
-/

set_option autoImplicit false

/-- The set of characters Python's `str.strip()` removes and that `\s` of the
`re` module matches on `str` patterns (the Unicode whitespace characters).
The zero-width space U+200B is deliberately not in this set: Python does not
treat it as whitespace. -/
def pyIsSpace (c : Char) : Bool :=
  c = ' ' || c = '\t' || c = '\n' ||
  (0x0B ≤ c.toNat && c.toNat ≤ 0x0D) ||
  (0x1C ≤ c.toNat && c.toNat ≤ 0x1F) ||
  c.toNat = 0x85 || c.toNat = 0xA0 || c.toNat = 0x1680 ||
  (0x2000 ≤ c.toNat && c.toNat ≤ 0x200A) ||
  c.toNat = 0x2028 || c.toNat = 0x2029 || c.toNat = 0x202F ||
  c.toNat = 0x205F || c.toNat = 0x3000

/-- Leading-whitespace removal, the first half of Python's `str.strip()`. -/
def stripL (l : List Char) : List Char := l.dropWhile pyIsSpace

/-- Trailing-whitespace removal, the second half of Python's `str.strip()`. -/
def stripR (l : List Char) : List Char := (l.reverse.dropWhile pyIsSpace).reverse

/-- Python's `str.strip()` on the character list of a string. -/
def pyStripList (l : List Char) : List Char := stripR (stripL l)

/-- Python's `str.strip()`. -/
def pyStrip (s : String) : String := ⟨pyStripList s.data⟩

/-- `PLACEHOLDER_KEYS` of `main.py`: the fixed, ordered canonical key list.
Both the extraction targets and the template placeholder names. -/
def PLACEHOLDER_KEYS : List String :=
  ["候補者氏名", "フリガナ", "生年月日", "年齢", "最終学歴", "電話番号", "MAIL", "郵便番号",
   "現住所都道府県名", "現年収", "希望年収", "就業可能時期", "現職の雇用形態", "ステータス",
   "運転免許の有無", "自家用車の有無", "既往歴の有無", "扶養_配偶者の有無",
   "外国籍_永住権の有無", "犯罪歴の有無", "入社後2ヶ月までの費用", "希望勤務地",
   "出張_可否", "出張_期間", "出張_範囲", "転居_可否", "転居_範囲",
   "紹介先企業名_1", "紹介先企業名_2", "紹介先企業名_3",
   "希望職種_1", "希望職種_2", "希望職種_3",
   "希望選考方法", "面接候補日_1", "面接候補日_2", "面接候補日_3",
   "空白期間", "中途退学理由", "短期離職理由", "推薦文"]

/-- `ALIASES` of `main.py`: raw label variant → canonical key.  A Python dict
with string keys, modelled as an association list in declaration order. -/
def ALIASES : List (String × String) :=
  [("扶養＆配偶者の有無", "扶養_配偶者の有無"),
   ("現住所（都道府県名）", "現住所都道府県名"),
   ("永住権の有無", "外国籍_永住権の有無"),
   ("入社後〜2ヶ月の費用", "入社後2ヶ月までの費用")]

/-- The punctuation normalization inside `normalize_label`:
`str(label).strip().replace("：", ":").replace("　", " ")`.  The two
`str.replace` calls replace single characters, hence are character-wise maps
applied after the strip. -/
def preNormalize (label : String) : String :=
  ⟨((pyStripList label.data).map (fun c => if c = '：' then ':' else c)).map
      (fun c => if c = '　' then ' ' else c)⟩

/-- `if s in ALIASES: return ALIASES[s]` — dict lookup on the alias table
(`return s` when the label is not an alias). -/
def aliasSub (s : String) : String :=
  match ALIASES.find? (fun p => p.1 == s) with
  | some p => p.2
  | none => s

/-- `normalize_label` of `main.py`.  The Python function additionally maps the
argument `None` to `""`; callers in the extractors always pass a string, so
the embedding takes a `String`. -/
def normalize_label (label : String) : String := aliasSub (preNormalize label)

/-- `to_template_key` of `main.py`: exact canonical match, else the first
canonical key (in declared order) that is a text prefix of the normalized
label, else the normalized label unchanged.  The `for`/`return` loop over
`PLACEHOLDER_KEYS` is `List.find?` on the same list. -/
def to_template_key (label : String) : String :=
  let lab := normalize_label label
  if lab ∈ PLACEHOLDER_KEYS then lab
  else
    match PLACEHOLDER_KEYS.find? (fun k => k.data.isPrefixOf lab.data) with
    | some k => k
    | none => lab

example : to_template_key "候補者氏名様" = "候補者氏名" := by decide
example : to_template_key " 現住所（都道府県名） " = "現住所都道府県名" := by decide
example : to_template_key "ＭＡＩＬ" = "ＭＡＩＬ" := by decide
example : normalize_label "　電話番号：" = "電話番号:" := by decide
example : to_template_key "電話番号：" = "電話番号" := by decide

/-! ## The template filler (`差し込みロジック`) -/

/-- The zero-width space `_ZWS = "​"` of `main.py`. -/
def zwsChar : Char := '​'

/-- `_normalize_text` of `main.py`:
`s.replace("｛", "{").replace("｝", "}").replace(_ZWS, "")`.
The first two `str.replace` calls are character-wise maps; the third deletes
every zero-width space, a filter. -/
def normList (l : List Char) : List Char :=
  (((l.map (fun c => if c = '｛' then '\x7b' else c)).map
      (fun c => if c = '｝' then '\x7d' else c)).filter (fun c => c ≠ zwsChar))

/-- `_normalize_text` on strings. -/
def normalizeText (s : String) : String := ⟨normList s.data⟩

/-- Match a literal character sequence at the head of `cs`, returning the
remainder on success. -/
def dropLit : List Char → List Char → Option (List Char)
  | [], cs => some cs
  | _ :: _, [] => none
  | a :: as, c :: cs => if a = c then dropLit as cs else none

/-- The closing `\}\}` of the placeholder pattern. -/
def expectRBraces : List Char → Option (List Char)
  | '\x7d' :: '\x7d' :: r2 => some r2
  | _ => none

/-- One attempt of the compiled pattern `\{\{\s*K\s*\}\}` at the head of `cs`
(`K` is `re.escape`d, hence literal).  In the source every substituted key is
a mapping key whose first character is not whitespace, so each greedy `\s*`
is followed by a non-whitespace literal and therefore matches exactly the
maximal whitespace run; the embedding consumes that run directly. -/
def matchPh (k : List Char) (cs : List Char) : Option (List Char) :=
  match cs with
  | '\x7b' :: '\x7b' :: rest =>
    (dropLit k (rest.dropWhile pyIsSpace)).bind
      (fun r1 => expectRBraces (r1.dropWhile pyIsSpace))
  | _ => none

/-- Left-to-right, non-overlapping replacement of every `\{\{\s*K\s*\}\}`
match by `v`, i.e. `re.sub`; the replacement text is not rescanned.  The
fuel argument bounds the recursion by the text length: every step consumes
at least one character. -/
def subKeyF (k v : List Char) : Nat → List Char → List Char
  | 0, cs => cs
  | _ + 1, [] => []
  | fuel + 1, c :: cs =>
    match matchPh k (c :: cs) with
    | some rest => v ++ subKeyF k v fuel rest
    | none => c :: subKeyF k v fuel cs

/-- `pattern.sub(v, text)` for `pattern = re.compile(r"\{\{\s*" + re.escape(k) + r"\s*\}\}")`. -/
def subKey (k v : List Char) (cs : List Char) : List Char := subKeyF k v cs.length cs

/-- `_replace_text_block` of `main.py`: normalize the text, then substitute
each mapping entry in dict iteration (insertion) order.  Mapping values are
strings throughout the program (`"" if v is None else str(v)` collapses to
`v` on string values). -/
def replaceTextBlock (raw_text : String) (mapping : List (String × String)) : String :=
  ⟨mapping.foldl (fun text kv => subKey kv.1.data kv.2.data text) (normList raw_text.data)⟩

/-- `"".join(r.text for r in paragraph.runs)`. -/
def joinedText (runs : List String) : String := ⟨(runs.map String.data).flatten⟩

/-- `_replace_in_paragraph` of `main.py`.  A paragraph is the list of its
runs' texts.  If substitution changes the joined text, the first run absorbs
the whole new text and the remaining runs are cleared. -/
def replaceInParagraph (paragraph : List String) (mapping : List (String × String)) :
    List String :=
  match paragraph with
  | [] => []
  | r0 :: rest =>
    let joined := joinedText (r0 :: rest)
    let replaced := replaceTextBlock joined mapping
    if replaced = joined then r0 :: rest
    else replaced :: rest.map (fun _ => "")

/-- A docx table: rows of cells, a cell holding paragraphs. -/
abbrev DocxTable := List (List (List (List String)))

/-- `_replace_in_table` of `main.py`: every paragraph of every cell of every
row. -/
def replaceInTable (table : DocxTable) (mapping : List (String × String)) : DocxTable :=
  table.map (fun row => row.map (fun cell => cell.map (fun p => replaceInParagraph p mapping)))

/-- The paragraphs and tables of a docx header or footer. -/
structure DocxPart where
  paragraphs : List (List String)
  tables : List DocxTable
  deriving DecidableEq

/-- A docx section; `if section.header:` of the source is the `Option`. -/
structure DocxSection where
  header : Option DocxPart
  footer : Option DocxPart
  deriving DecidableEq

/-- The parts of a docx document that `fill_docx_placeholders` traverses. -/
structure Docx where
  paragraphs : List (List String)
  tables : List DocxTable
  sections : List DocxSection
  deriving DecidableEq

/-- `fill_docx_placeholders` of `main.py` (file loading and saving dropped):
body paragraphs, body tables, then each section's header and footer
paragraphs and tables.  Each paragraph is rewritten independently of the
others, so the imperative traversal is a map over every paragraph
position. -/
def fill_docx_placeholders (doc : Docx) (mapping : List (String × String)) : Docx where
  paragraphs := doc.paragraphs.map (fun p => replaceInParagraph p mapping)
  tables := doc.tables.map (fun t => replaceInTable t mapping)
  sections := doc.sections.map (fun s =>
    { header := s.header.map (fun h =>
        { paragraphs := h.paragraphs.map (fun p => replaceInParagraph p mapping)
          tables := h.tables.map (fun t => replaceInTable t mapping) })
      footer := s.footer.map (fun f =>
        { paragraphs := f.paragraphs.map (fun p => replaceInParagraph p mapping)
          tables := f.tables.map (fun t => replaceInTable t mapping) }) })

example :
    replaceTextBlock "\x7b\x7b候補者氏名\x7d\x7d様" [("候補者氏名", "山田太郎")] =
      "山田太郎様" := by decide
example :
    replaceTextBlock "｛｛MAIL｝｝" [("MAIL", "a@b.jp")] = "a@b.jp" := by decide
example :
    replaceInParagraph ["\x7b\x7b候補", "者氏名\x7d\x7d様"] [("候補者氏名", "山田太郎")] =
      ["山田太郎様", ""] := by decide
example : replaceTextBlock "\x7b\x7b 年齢 \x7d\x7d" [("年齢", "30")] = "30" := by decide

/-! ## Python dicts over string keys

A dict is an association list in insertion order: assigning to an existing
key updates the stored pair in place, assigning to a fresh key appends. -/

abbrev PyDict := List (String × String)

/-- `d[k] = v`. -/
def dictInsert (d : PyDict) (k v : String) : PyDict :=
  if d.any (fun p => p.1 == k) then d.map (fun p => if p.1 == k then (k, v) else p)
  else d ++ [(k, v)]

/-- `d.get(k)` (`None` when absent). -/
def dictGet (d : PyDict) (k : String) : Option String :=
  (d.find? (fun p => p.1 == k)).map (fun p => p.2)

/-- One iteration of an extractor loop: insert the accepted (key, value)
pair if the row or line produced one, else leave the dict unchanged. -/
def dictStep {α : Type} (f : α → Option (String × String)) (d : PyDict) (x : α) : PyDict :=
  match f x with
  | some kv => dictInsert d kv.1 kv.2
  | none => d

/-- Fold a sequence of optionally-accepted (key, value) pairs into a dict,
the common shape of both extractor loops (`result = {}` then conditional
`result[tkey] = ...` per row or line). -/
def buildDict {α : Type} (f : α → Option (String × String)) (xs : List α) : PyDict :=
  xs.foldl (dictStep f) []

/-! ## The spreadsheet extractor -/

/-- The body of the `extract_from_excel` row loop: a worksheet row is the
tuple of its cell values, a text cell modelled as `some s` (`str` applied to
it is the identity) and an empty cell as `none`.  `if not row: continue`
skips empty tuples; `key, val = (row[0], row[1] if len(row) > 1 else None)`;
`if key and val:` is Python truthiness, false for `None` and for the empty
string; the value is stored under `to_template_key(str(key))` if canonical,
stripped. -/
def excelRowPair (row : List (Option String)) : Option (String × String) :=
  match row with
  | [] => none
  | key :: rest =>
    let val : Option String := match rest with | [] => none | c :: _ => c
    match key, val with
    | some ks, some vs =>
      if ks ≠ "" ∧ vs ≠ "" then
        if to_template_key ks ∈ PLACEHOLDER_KEYS then some (to_template_key ks, pyStrip vs)
        else none
      else none
    | _, _ => none

/-- `extract_from_excel` of `main.py`, on the rows of the first worksheet
(the `load_workbook` file I/O is outside the model). -/
def extract_from_excel (rows : List (List (Option String))) : PyDict :=
  buildDict excelRowPair rows

/-! ## The PDF extractor -/

/-- Line-boundary characters of Python's `str.splitlines`. -/
def pyIsLineBreak (c : Char) : Bool :=
  c = '\n' || c = '\r' || c.toNat = 0x0B || c.toNat = 0x0C ||
  (0x1C ≤ c.toNat && c.toNat ≤ 0x1E) || c.toNat = 0x85 ||
  c.toNat = 0x2028 || c.toNat = 0x2029

/-- `text.splitlines()`, splitting at every boundary character.  (Python
counts a `"\r\n"` pair as one boundary; splitting it as two produces an
extra blank line, which the extractor loop skips, so the resulting mapping
is unaffected.) -/
def splitLinesAux : List Char → List Char → List (List Char)
  | [], acc => [acc.reverse]
  | c :: cs, acc =>
    if pyIsLineBreak c then acc.reverse :: splitLinesAux cs []
    else splitLinesAux cs (c :: acc)

/-- `text.splitlines()`. -/
def splitLines (l : List Char) : List (List Char) := splitLinesAux l []

/-- A colon as accepted by the `[:：]` character class. -/
def isColonChar (c : Char) : Bool := c = ':' || c = '：'

/-- `re.match(r"^\s*(.+?)\s*[:：]\s*(.+?)\s*$", line)`, returning the two
groups.  The embedding is the deterministic resolution of the pattern's
backtracking on a newline-free line:
the greedy `^\s*` first takes the maximal leading whitespace run, of length
`i0`; the lazy `(.+?)` then reaches colon candidates left to right, so the
matched colon is the first colon at position `j ≥ i0 + 1` that leaves a
non-empty remainder for the second `(.+?)` (`j + 2 ≤ L`); group 1 is the
text from `i0` to the whitespace run preceding that colon.  When no such
colon exists, `^\s*` backs off one character so that a colon sitting right
at `i0` can be matched, with the single whitespace character before it as
group 1.  Group 2 is the remainder after the colon stripped on both sides;
when that remainder is pure whitespace, the greedy middle `\s*` backs off
one character and group 2 is the last (whitespace) character. -/
def lineMatch (l : List Char) : Option (List Char × List Char) :=
  let L := l.length
  let i0 := (l.takeWhile pyIsSpace).length
  let g2 := fun (rest : List Char) =>
    if (stripL rest).isEmpty then [rest.getLastD ' '] else pyStripList rest
  match (List.range L).find?
      (fun j => decide (i0 + 1 ≤ j) && decide (j + 2 ≤ L) && isColonChar (l.getD j ' ')) with
  | some j => some (stripR ((l.drop i0).take (j - i0)), g2 (l.drop (j + 1)))
  | none =>
    if 1 ≤ i0 ∧ i0 + 2 ≤ L ∧ isColonChar (l.getD i0 ' ') then
      some ([l.getD (i0 - 1) ' '], g2 (l.drop (i0 + 1)))
    else none

/-- The body of the `extract_from_pdf` line loop: blank lines and lines not
matching the label-colon-value pattern are skipped; the value is stored
under `to_template_key` of the label if canonical and the raw value is
non-empty (group 2 always has at least one character), stripped. -/
def pdfLinePair (line : List Char) : Option (String × String) :=
  if (pyStripList line).isEmpty then none
  else
    match lineMatch line with
    | none => none
    | some (rawK, rawV) =>
      if to_template_key ⟨rawK⟩ ∈ PLACEHOLDER_KEYS ∧ rawV ≠ [] then
        some (to_template_key ⟨rawK⟩, pyStrip ⟨rawV⟩)
      else none

/-- `extract_from_pdf` of `main.py`, applied to the page text.  Obtaining
that text (PyPDF2 text layer, or the OCR fallback when it is blank) is file
and model I/O outside the embedding; both paths feed a single string into
the same line loop, which is what is modelled. -/
def extract_from_pdf (text : String) : PyDict :=
  buildDict pdfLinePair (splitLines text.data)

/-! ## The `/process` glue around the core -/

/-- The extractor dispatch of `process` (`suffix` is the already lowercased
file extension): spreadsheet extensions go to the spreadsheet extractor,
`.pdf` to the PDF extractor, anything else leaves `extracted = {}`. -/
def processExtracted (suffix : String) (rows : List (List (Option String)))
    (pdfText : String) : PyDict :=
  if suffix ∈ ([".xlsx", ".xlsm"] : List String) then extract_from_excel rows
  else if suffix = ".pdf" then extract_from_pdf pdfText
  else []

/-- `completed = {k: extracted.get(k, "") for k in PLACEHOLDER_KEYS}`. -/
def completedMapping (extracted : PyDict) : PyDict :=
  PLACEHOLDER_KEYS.map (fun k => (k, (dictGet extracted k).getD ""))

/-- `sum(1 for v in completed.values() if v)` of the report. -/
def filled_count (completed : PyDict) : Nat :=
  (completed.filter (fun p => !(p.2 == ""))).length

/-- `[k for k, v in completed.items() if not v]` of the report. -/
def missing_keys (completed : PyDict) : List String :=
  (completed.filter (fun p => p.2 == "")).map (fun p => p.1)

example :
    extract_from_excel [[some "候補者氏名", some "山田太郎"], [some "MAIL", some "taro@example.com"]] =
      [("候補者氏名", "山田太郎"), ("MAIL", "taro@example.com")] := by decide
example :
    extract_from_pdf "現住所（都道府県名）：東京都" = [("現住所都道府県名", "東京都")] := by
  decide
example : extract_from_pdf "ごみ\n候補者氏名: 山田 太郎 \nMAIL:a@b.jp\nMAIL: c@d.jp" =
    [("候補者氏名", "山田 太郎"), ("MAIL", "c@d.jp")] := by decide
example : lineMatch " : x".data = some ([' '], ['x']) := by decide
example : lineMatch "候補者氏名： ".data = some ("候補者氏名".data, [' ']) := by decide
example : lineMatch "a:".data = none := by decide
example : extract_from_excel [[some "候補者氏名", some " "]] = [("候補者氏名", "")] := by decide

/-! ## Lemmas: stripping -/

theorem strEq (a b : String) (h : a.data = b.data) : a = b := by
  cases a; cases b; exact congrArg String.mk h

theorem length_dropWhile (p : Char → Bool) (l : List Char) :
    (l.dropWhile p).length ≤ l.length := by
  induction l with
  | nil => simp
  | cons a l ih =>
    by_cases h : p a
    · simp only [List.dropWhile_cons_of_pos h, List.length_cons]; omega
    · simp [List.dropWhile_cons_of_neg h]

theorem dropWhile_cons_eq_self {p : Char → Bool} {a : Char} {l : List Char}
    (h : (a :: l).dropWhile p = a :: l) : p a = false := by
  by_contra hp
  rw [Bool.not_eq_false] at hp
  rw [List.dropWhile_cons_of_pos hp] at h
  have h2 : l.length + 1 ≤ l.length := by
    calc l.length + 1 = (a :: l).length := by simp
    _ = (l.dropWhile p).length := by rw [h]
    _ ≤ l.length := length_dropWhile p l
  omega

theorem dropWhile_idem (p : Char → Bool) (l : List Char) :
    (l.dropWhile p).dropWhile p = l.dropWhile p := by
  induction l with
  | nil => rfl
  | cons a l ih =>
    by_cases h : p a
    · simp [List.dropWhile_cons_of_pos h, ih]
    · simp [List.dropWhile_cons_of_neg h]

theorem dropWhile_map_self {p : Char → Bool} {f : Char → Char}
    (Hf : ∀ c, p (f c) = true → p c = true) {l : List Char}
    (h : l.dropWhile p = l) : (l.map f).dropWhile p = l.map f := by
  cases l with
  | nil => rfl
  | cons a l =>
    have ha : p a = false := dropWhile_cons_eq_self h
    have hfa : ¬ p (f a) = true := by
      intro hc
      simp [Hf a hc] at ha
    simp only [List.map_cons]
    exact List.dropWhile_cons_of_neg hfa

theorem stripL_idem (l : List Char) : stripL (stripL l) = stripL l :=
  dropWhile_idem pyIsSpace l

theorem stripR_idem (l : List Char) : stripR (stripR l) = stripR l := by
  unfold stripR
  rw [List.reverse_reverse, dropWhile_idem]

theorem stripR_isPre (l : List Char) : stripR l <+: l := by
  unfold stripR
  obtain ⟨t, ht⟩ : l.reverse.dropWhile pyIsSpace <:+ l.reverse := List.dropWhile_suffix pyIsSpace
  refine ⟨t.reverse, ?_⟩
  have : (t ++ l.reverse.dropWhile pyIsSpace).reverse = l.reverse.reverse := by rw [ht]
  simpa using this

theorem stripL_of_isPre {x y : List Char} (h : stripL x = x) (hp : y <+: x) :
    stripL y = y := by
  cases y with
  | nil => rfl
  | cons c t =>
    obtain ⟨r, hr⟩ := hp
    have hx : (c :: (t ++ r)).dropWhile pyIsSpace = c :: (t ++ r) := by
      have hh := h
      rw [← hr] at hh
      simpa [stripL] using hh
    have hc : pyIsSpace c = false := dropWhile_cons_eq_self hx
    have hcn : ¬ pyIsSpace c = true := by simp [hc]
    unfold stripL
    exact List.dropWhile_cons_of_neg hcn

theorem stripL_map {f : Char → Char} (Hf : ∀ c, pyIsSpace (f c) = true → pyIsSpace c = true)
    {l : List Char} (h : stripL l = l) : stripL (l.map f) = l.map f :=
  dropWhile_map_self Hf h

theorem stripR_map {f : Char → Char} (Hf : ∀ c, pyIsSpace (f c) = true → pyIsSpace c = true)
    {l : List Char} (h : stripR l = l) : stripR (l.map f) = l.map f := by
  have hrev : l.reverse.dropWhile pyIsSpace = l.reverse := by
    have := congrArg List.reverse h
    unfold stripR at this
    simpa using this
  have h2 : (l.reverse.map f).dropWhile pyIsSpace = l.reverse.map f :=
    dropWhile_map_self Hf hrev
  unfold stripR
  rw [← List.map_reverse, h2, ← List.map_reverse, List.reverse_reverse]

theorem stripL_pyStripList (l : List Char) : stripL (pyStripList l) = pyStripList l :=
  stripL_of_isPre (stripL_idem l) (stripR_isPre (stripL l))

theorem stripR_pyStripList (l : List Char) : stripR (pyStripList l) = pyStripList l :=
  stripR_idem (stripL l)

theorem pyStripList_idem (l : List Char) : pyStripList (pyStripList l) = pyStripList l := by
  show stripR (stripL (pyStripList l)) = pyStripList l
  rw [stripL_pyStripList, stripR_pyStripList]

theorem pyStripList_map_idem {f : Char → Char}
    (Hf : ∀ c, pyIsSpace (f c) = true → pyIsSpace c = true) (l : List Char) :
    pyStripList ((pyStripList l).map f) = (pyStripList l).map f := by
  show stripR (stripL ((pyStripList l).map f)) = (pyStripList l).map f
  rw [stripL_map Hf (stripL_pyStripList l), stripR_map Hf (stripR_pyStripList l)]

theorem pyStrip_idem (s : String) : pyStrip (pyStrip s) = pyStrip s := by
  apply strEq
  simpa [pyStrip] using pyStripList_idem s.data

/-! ## Lemmas: the normalizer -/

/-- The character-wise effect of the two `replace` calls of `normalize_label`. -/
def charNorm (c : Char) : Char :=
  if c = '：' then ':' else if c = '　' then ' ' else c

theorem preNormalize_data (s : String) :
    (preNormalize s).data = (pyStripList s.data).map charNorm := by
  show ((pyStripList s.data).map _).map _ = _
  rw [List.map_map]
  refine List.map_congr_left (fun c _ => ?_)
  by_cases h1 : c = '：'
  · simp [charNorm, h1, Function.comp]
  · by_cases h2 : c = '　' <;> simp [charNorm, h1, h2, Function.comp]

theorem charNorm_ws (c : Char) (h : pyIsSpace (charNorm c) = true) : pyIsSpace c = true := by
  by_cases h1 : c = '：'
  · subst h1; exact absurd h (by decide)
  · by_cases h2 : c = '　'
    · subst h2; decide
    · simpa [charNorm, h1, h2] using h

theorem charNorm_idem (c : Char) : charNorm (charNorm c) = charNorm c := by
  by_cases h1 : c = '：'
  · simp [charNorm, h1]
  · by_cases h2 : c = '　' <;> simp [charNorm, h1, h2]

theorem preNormalize_idem (s : String) : preNormalize (preNormalize s) = preNormalize s := by
  apply strEq
  rw [preNormalize_data, preNormalize_data, pyStripList_map_idem charNorm_ws, List.map_map]
  exact List.map_congr_left (fun c _ => by simp [Function.comp, charNorm_idem])

theorem strDataAppend (a b : String) : (a ++ b).data = a.data ++ b.data := by
  cases a; cases b; rfl

theorem mapSelf {α : Type} (f : α → α) (l : List α) (h : ∀ c ∈ l, f c = c) : l.map f = l := by
  induction l with
  | nil => rfl
  | cons a t ih => simp [h a (by simp), ih (fun c hc => h c (by simp [hc]))]

/-- Nonempty with a non-whitespace head. -/
def headNotWs : List Char → Bool
  | [] => false
  | c :: _ => !pyIsSpace c

theorem dropWhile_eq_self_of_head {l : List Char} (h : headNotWs l = true) :
    l.dropWhile pyIsSpace = l := by
  cases l with
  | nil => rfl
  | cons c t => exact List.dropWhile_cons_of_neg (by simpa [headNotWs] using h)

theorem stripL_append_of_head {K s : List Char} (h : headNotWs K = true) :
    stripL (K ++ s) = K ++ s := by
  cases K with
  | nil => simp [headNotWs] at h
  | cons c t =>
    show ((c :: t) ++ s).dropWhile pyIsSpace = (c :: t) ++ s
    rw [List.cons_append]
    exact List.dropWhile_cons_of_neg (by simpa [headNotWs] using h)

theorem stripR_append_of_last {K s : List Char} (h : headNotWs K.reverse = true) :
    stripR (K ++ s) = K ++ stripR s := by
  unfold stripR
  rw [List.reverse_append, List.dropWhile_append]
  by_cases he : (s.reverse.dropWhile pyIsSpace).isEmpty
  · have hs : s.reverse.dropWhile pyIsSpace = [] := by simpa [List.isEmpty_iff] using he
    rw [if_pos he, dropWhile_eq_self_of_head h, List.reverse_reverse, hs]
    simp
  · rw [if_neg he, List.reverse_append, List.reverse_reverse]

/-! ## Lemmas: the two static tables -/

theorem keys_shape : ∀ K ∈ PLACEHOLDER_KEYS,
    headNotWs K.data = true ∧ headNotWs K.data.reverse = true ∧
    ∀ c ∈ K.data, c ≠ '：' ∧ c ≠ '　' ∧ c ≠ '｛' ∧ c ≠ '｝' ∧ c ≠ zwsChar := by
  decide

theorem keys_pf : ∀ a ∈ PLACEHOLDER_KEYS, ∀ b ∈ PLACEHOLDER_KEYS,
    a.data.isPrefixOf b.data = true → a = b := by
  decide

theorem alias_facts : ∀ p ∈ ALIASES,
    p.2 ∈ PLACEHOLDER_KEYS ∧ preNormalize p.2 = p.2 ∧ p.2 ≠ p.1 ∧
    aliasSub (preNormalize p.2) = p.2 := by
  decide

theorem alias_keys_no_canon : ∀ p ∈ ALIASES, ∀ k ∈ PLACEHOLDER_KEYS,
    k.data.isPrefixOf p.1.data = false := by
  decide

theorem alias_keys_nodup : (ALIASES.map Prod.fst).Nodup := by decide

theorem find?_eq_of_mem_nodup :
    ∀ (d : List (String × String)) (a t : String), (a, t) ∈ d → (d.map Prod.fst).Nodup →
      d.find? (fun p => p.1 == a) = some (a, t) := by
  intro d
  induction d with
  | nil => intro a t h; simp at h
  | cons q d ih =>
    intro a t hmem hnd
    simp only [List.map_cons, List.nodup_cons] at hnd
    rcases List.mem_cons.mp hmem with hq | hd
    · subst hq
      simp [List.find?_cons]
    · have hne : ¬ (q.1 == a) = true := by
        intro hbeq
        exact hnd.1 (by
          rw [beq_iff_eq] at hbeq
          rw [hbeq]
          exact List.mem_map.mpr ⟨(a, t), hd, rfl⟩)
      have hfalse : (q.1 == a) = false := by simpa using hne
      simp only [List.find?_cons, hfalse]
      exact ih a t hd hnd.2

theorem preNormalize_key_append (K : String) (hK : K ∈ PLACEHOLDER_KEYS) (s : String) :
    (preNormalize (K ++ s)).data = K.data ++ (stripR s.data).map charNorm := by
  have hshape := keys_shape K hK
  have hstrip : pyStripList (K.data ++ s.data) = K.data ++ stripR s.data := by
    unfold pyStripList
    rw [stripL_append_of_head hshape.1, stripR_append_of_last hshape.2.1]
  rw [preNormalize_data, strDataAppend, hstrip, List.map_append,
    mapSelf charNorm K.data (fun c hc => by
      simp [charNorm, (hshape.2.2 c hc).1, (hshape.2.2 c hc).2.1])]

/-! ## Claim C7 -/

/-- Claim C7: `normalize_label` is idempotent — every output of
`normalize_label` is a fixed point of `normalize_label`. -/
theorem C7_normalize_idem :
    ∀ s : String, normalize_label (normalize_label s) = normalize_label s := by
  intro s
  show aliasSub (preNormalize (aliasSub (preNormalize s))) = aliasSub (preNormalize s)
  rcases hfind : ALIASES.find? (fun p => p.1 == preNormalize s) with _ | p
  · have h1 : aliasSub (preNormalize s) = preNormalize s := by simp [aliasSub, hfind]
    rw [h1, preNormalize_idem, h1]
  · have h1 : aliasSub (preNormalize s) = p.2 := by simp [aliasSub, hfind]
    rw [h1]
    exact (alias_facts p (List.mem_of_find?_eq_some hfind)).2.2.2

/-! ## Claim C6 -/

/-- Claim C6: a raw label whose punctuation-normalized form exactly matches
an alias-table entry resolves to that entry's mapped canonical key — never
to the literal input label — bypassing prefix matching. -/
theorem C6_alias_resolution :
    ∀ l a t : String, preNormalize l = a → (a, t) ∈ ALIASES →
      to_template_key l = t ∧ to_template_key l ≠ l := by
  intro l a t hpre hmem
  have hfacts := alias_facts (a, t) hmem
  have hfind : ALIASES.find? (fun p => p.1 == a) = some (a, t) :=
    find?_eq_of_mem_nodup ALIASES a t hmem alias_keys_nodup
  have hnorm : normalize_label l = t := by
    show aliasSub (preNormalize l) = t
    rw [hpre]
    simp [aliasSub, hfind]
  have hres : to_template_key l = t := by
    simp [to_template_key, hnorm, hfacts.1]
  refine ⟨hres, ?_⟩
  rw [hres]
  intro heq
  have : preNormalize t = a := by rw [← heq] at hpre; exact hpre
  rw [hfacts.2.1] at this
  exact hfacts.2.2.1 (by rw [this])

/-- Witness for C6 at the residence-prefecture alias. -/
theorem C6_alias_resolution_witness :
    to_template_key "現住所（都道府県名）" = "現住所都道府県名" ∧
      to_template_key "現住所（都道府県名）" ≠ "現住所（都道府県名）" :=
  C6_alias_resolution "現住所（都道府県名）" "現住所（都道府県名）" "現住所都道府県名"
    (by decide) (by decide)

/-! ## Claim C1 -/

/-- Claim C1: `to_template_key` returns the normalized label itself when it
exactly equals a canonical key, otherwise the first canonical key in the
fixed declared order whose text begins the normalized label, otherwise the
normalized label unchanged; and in particular every raw label extending a
canonical key `K` (with no other canonical key as a longer matching head)
resolves to `K`. -/
theorem C1_resolve :
    (∀ l : String,
        to_template_key l =
          if normalize_label l ∈ PLACEHOLDER_KEYS then normalize_label l
          else
            (PLACEHOLDER_KEYS.find?
                (fun k => k.data.isPrefixOf (normalize_label l).data)).getD
              (normalize_label l))
    ∧ (∀ K, K ∈ PLACEHOLDER_KEYS → ∀ s : String, s ≠ "" →
        (∀ K2, K2 ∈ PLACEHOLDER_KEYS →
          K2.data.isPrefixOf (normalize_label (K ++ s)).data = true →
          K2.length ≤ K.length) →
        to_template_key (K ++ s) = K) := by
  constructor
  · intro l
    by_cases hmem : normalize_label l ∈ PLACEHOLDER_KEYS
    · simp [to_template_key, hmem]
    · rcases h : PLACEHOLDER_KEYS.find? (fun k => k.data.isPrefixOf (normalize_label l).data)
        with _ | k
      · simp [to_template_key, hmem, h]
      · simp [to_template_key, hmem, h]
  · intro K hK s _ _
    have hpre := preNormalize_key_append K hK s
    have hdata : (normalize_label (K ++ s)).data = K.data ++ (stripR s.data).map charNorm := by
      show (aliasSub (preNormalize (K ++ s))).data = _
      have hnone : ALIASES.find? (fun p => p.1 == preNormalize (K ++ s)) = none := by
        apply List.find?_eq_none.mpr
        intro p hp hbeq
        rw [beq_iff_eq] at hbeq
        have hpref : K.data.isPrefixOf p.1.data = true := by
          rw [hbeq, hpre]
          exact List.isPrefixOf_iff_prefix.mpr (List.prefix_append _ _)
        rw [alias_keys_no_canon p hp K hK] at hpref
        exact Bool.false_ne_true hpref
      simp only [aliasSub, hnone]
      exact hpre
    have hKpre : K.data.isPrefixOf (normalize_label (K ++ s)).data = true := by
      rw [hdata]
      exact List.isPrefixOf_iff_prefix.mpr (List.prefix_append _ _)
    by_cases hmem : normalize_label (K ++ s) ∈ PLACEHOLDER_KEYS
    · simp only [to_template_key, hmem, if_pos]
      exact (keys_pf K hK (normalize_label (K ++ s)) hmem hKpre).symm
    · have hsome : (PLACEHOLDER_KEYS.find?
          (fun k => k.data.isPrefixOf (normalize_label (K ++ s)).data)).isSome :=
        List.find?_isSome.mpr ⟨K, hK, hKpre⟩
      rcases hfind : PLACEHOLDER_KEYS.find?
          (fun k => k.data.isPrefixOf (normalize_label (K ++ s)).data) with _ | k0
      · rw [hfind] at hsome; simp at hsome
      · have hp : k0.data.isPrefixOf (normalize_label (K ++ s)).data = true := by
          simpa using List.find?_some hfind
        have hk0 : k0 ∈ PLACEHOLDER_KEYS := List.mem_of_find?_eq_some hfind
        have hcomp := List.prefix_or_prefix_of_prefix
          ( List.isPrefixOf_iff_prefix.mp hp) ( List.isPrefixOf_iff_prefix.mp hKpre)
        have hk0K : k0 = K := by
          rcases hcomp with hc | hc
          · exact keys_pf k0 hk0 K hK ( List.isPrefixOf_iff_prefix.mpr hc)
          · exact (keys_pf K hK k0 hk0 ( List.isPrefixOf_iff_prefix.mpr hc)).symm
        simp [to_template_key, hmem, hfind, hk0K]

/-- Witness for C1 on the label 候補者氏名様, a proper extension of the
canonical key 候補者氏名. -/
theorem C1_resolve_witness : to_template_key "候補者氏名様" = "候補者氏名" :=
  C1_resolve.2 "候補者氏名" (by decide) "様" (by decide) (by decide)

/-! ## Lemmas: the substitution scanner -/

theorem matchPh_ne {k : List Char} {c : Char} {cs : List Char} (h : c ≠ '\x7b') :
    matchPh k (c :: cs) = none := by
  unfold matchPh
  split
  · next rest heq =>
    injection heq with h1 _
    exact absurd h1 h
  · rfl

theorem dropLit_le : ∀ (k l r : List Char), dropLit k l = some r → r.length ≤ l.length := by
  intro k
  induction k with
  | nil =>
    intro l r h
    simp only [dropLit, Option.some.injEq] at h
    subst h
    exact Nat.le_refl _
  | cons a as ih =>
    intro l r h
    cases l with
    | nil => simp [dropLit] at h
    | cons c cs =>
      simp only [dropLit] at h
      split_ifs at h
      have := ih cs r h
      simp only [List.length_cons]
      omega

theorem expectRBraces_some {x r : List Char} (h : expectRBraces x = some r) :
    x = '\x7d' :: '\x7d' :: r := by
  unfold expectRBraces at h
  split at h
  · next r2 =>
    have : r2 = r := by simpa using h
    rw [this]
  · simp at h

theorem matchPh_lt {k cs r : List Char} (h : matchPh k cs = some r) : r.length < cs.length := by
  unfold matchPh at h
  split at h
  · next rest =>
    rcases hd : dropLit k (rest.dropWhile pyIsSpace) with _ | r1
    · rw [hd] at h; simp at h
    · rw [hd, Option.some_bind] at h
      have hx := expectRBraces_some h
      have h1 : r.length + 2 = (r1.dropWhile pyIsSpace).length := by rw [hx]; simp
      have h2 := length_dropWhile pyIsSpace r1
      have h3 := dropLit_le k (rest.dropWhile pyIsSpace) r1 hd
      have h4 := length_dropWhile pyIsSpace rest
      simp only [List.length_cons]
      omega
  · simp at h

theorem subKeyF_succ_none {k v : List Char} {c : Char} {cs : List Char} {f : Nat}
    (h : matchPh k (c :: cs) = none) : subKeyF k v (f + 1) (c :: cs) = c :: subKeyF k v f cs := by
  simp only [subKeyF, h]

theorem subKeyF_succ_some {k v : List Char} {c : Char} {cs rest : List Char} {f : Nat}
    (h : matchPh k (c :: cs) = some rest) :
    subKeyF k v (f + 1) (c :: cs) = v ++ subKeyF k v f rest := by
  simp only [subKeyF, h]

theorem subKeyF_congr (k v : List Char) :
    ∀ (f1 f2 : Nat) (cs : List Char), cs.length ≤ f1 → cs.length ≤ f2 →
      subKeyF k v f1 cs = subKeyF k v f2 cs := by
  intro f1
  induction f1 with
  | zero =>
    intro f2 cs h1 _
    have : cs = [] := List.length_eq_zero.mp (Nat.le_zero.mp h1)
    subst this
    cases f2 <;> rfl
  | succ f1 ih =>
    intro f2 cs h1 h2
    cases cs with
    | nil => cases f2 <;> rfl
    | cons c cs' =>
      cases f2 with
      | zero => simp at h2
      | succ f2' =>
        simp only [List.length_cons] at h1 h2
        rcases hm : matchPh k (c :: cs') with _ | rest
        · rw [subKeyF_succ_none hm, subKeyF_succ_none hm, ih f2' cs' (by omega) (by omega)]
        · have hlt := matchPh_lt hm
          simp only [List.length_cons] at hlt
          rw [subKeyF_succ_some hm, subKeyF_succ_some hm, ih f2' rest (by omega) (by omega)]

theorem subKey_cons_none {k v : List Char} {c : Char} {cs : List Char}
    (h : matchPh k (c :: cs) = none) : subKey k v (c :: cs) = c :: subKey k v cs := by
  show subKeyF k v (c :: cs).length (c :: cs) = c :: subKeyF k v cs.length cs
  rw [List.length_cons, subKeyF_succ_none h]

theorem subKey_match {k v cs r : List Char} (h : matchPh k cs = some r) :
    subKey k v cs = v ++ subKey k v r := by
  cases cs with
  | nil => simp [matchPh] at h
  | cons c cs' =>
    show subKeyF k v (c :: cs').length (c :: cs') = v ++ subKeyF k v r.length r
    rw [List.length_cons, subKeyF_succ_some h]
    have hlt := matchPh_lt h
    simp only [List.length_cons] at hlt
    rw [subKeyF_congr k v cs'.length r.length r (by omega) (by omega)]

/-- Whether some position of `cs` begins a placeholder match for `k`. -/
def hasMatch (k : List Char) : List Char → Bool
  | [] => false
  | c :: cs => (matchPh k (c :: cs)).isSome || hasMatch k cs

theorem subKey_of_hasMatch_false {k v : List Char} :
    ∀ {cs : List Char}, hasMatch k cs = false → subKey k v cs = cs := by
  intro cs
  induction cs with
  | nil => intro _; rfl
  | cons c cs ih =>
    intro h
    simp only [hasMatch, Bool.or_eq_false_iff] at h
    have hm : matchPh k (c :: cs) = none := by
      rcases hmm : matchPh k (c :: cs) with _ | r
      · rfl
      · rw [hmm] at h; simp at h
    rw [subKey_cons_none hm, ih h.2]

theorem hasMatch_false_of_no_lb {k : List Char} :
    ∀ {cs : List Char}, (∀ c ∈ cs, c ≠ '\x7b') → hasMatch k cs = false := by
  intro cs
  induction cs with
  | nil => intro _; rfl
  | cons c cs ih =>
    intro h
    simp only [hasMatch, Bool.or_eq_false_iff]
    refine ⟨?_, ih (fun x hx => h x (by simp [hx]))⟩
    rw [matchPh_ne (h c (by simp))]
    rfl

theorem subKey_append_no_lb {k v : List Char} {pre rest : List Char}
    (h : ∀ c ∈ pre, c ≠ '\x7b') :
    subKey k v (pre ++ rest) = pre ++ subKey k v rest := by
  induction pre with
  | nil => simp
  | cons c pre ih =>
    have hm : matchPh k (c :: (pre ++ rest)) = none := matchPh_ne (h c (by simp))
    rw [List.cons_append, subKey_cons_none hm, ih (fun x hx => h x (by simp [hx]))]
    rfl

theorem headNotWs_append {K x : List Char} (h : headNotWs K = true) :
    headNotWs (K ++ x) = true := by
  cases K with
  | nil => simp [headNotWs] at h
  | cons c t => simpa [headNotWs] using h

theorem dropLit_self : ∀ (K r : List Char), dropLit K (K ++ r) = some r := by
  intro K
  induction K with
  | nil => intro r; rfl
  | cons a as ih => intro r; simp [dropLit, ih]

theorem matchPh_at_key {K post : List Char} (hhead : headNotWs K = true) :
    matchPh K ('\x7b' :: '\x7b' :: (K ++ '\x7d' :: '\x7d' :: post)) = some post := by
  show (dropLit K ((K ++ '\x7d' :: '\x7d' :: post).dropWhile pyIsSpace)).bind
      (fun r1 => expectRBraces (r1.dropWhile pyIsSpace)) = some post
  rw [dropWhile_eq_self_of_head (headNotWs_append hhead), dropLit_self, Option.some_bind,
    List.dropWhile_cons_of_neg (by decide)]
  rfl

theorem normList_self {l : List Char} (h : ∀ c ∈ l, c ≠ '｛' ∧ c ≠ '｝' ∧ c ≠ zwsChar) :
    normList l = l := by
  induction l with
  | nil => rfl
  | cons c t ih =>
    have hc := h c (by simp)
    have ht := ih (fun x hx => h x (by simp [hx]))
    show ((((c :: t).map _).map _).filter _ : List Char) = c :: t
    simp only [List.map_cons, if_neg hc.1, if_neg hc.2.1, List.filter_cons]
    rw [if_pos (by simp [hc.2.2])]
    exact congrArg (List.cons c) ht

theorem foldl_subKey_self :
    ∀ (m : List (String × String)) (t : List Char),
      (∀ kv ∈ m, hasMatch kv.1.data t = false) →
      m.foldl (fun text kv => subKey kv.1.data kv.2.data text) t = t := by
  intro m
  induction m with
  | nil => intro t _; rfl
  | cons kv m ih =>
    intro t hm
    simp only [List.foldl_cons]
    rw [subKey_of_hasMatch_false (hm kv (by simp))]
    exact ih t (fun q hq => hm q (by simp [hq]))

theorem rtb_self {s : String} {m : List (String × String)}
    (hch : ∀ c ∈ s.data, c ≠ '｛' ∧ c ≠ '｝' ∧ c ≠ zwsChar)
    (hm : ∀ kv ∈ m, hasMatch kv.1.data s.data = false) :
    replaceTextBlock s m = s := by
  apply strEq
  show m.foldl _ (normList s.data) = s.data
  rw [normList_self hch]
  exact foldl_subKey_self m s.data hm

theorem replaceInParagraph_self {runs : List String} {m : List (String × String)}
    (h : replaceTextBlock (joinedText runs) m = joinedText runs) :
    replaceInParagraph runs m = runs := by
  cases runs with
  | nil => rfl
  | cons r0 rest => simp [replaceInParagraph, h]

/-! ## Claim C2 -/

theorem joinedText_single (s : String) : joinedText [s] = s := by
  apply strEq
  simp [joinedText]

/-- Counterexample to C2 as stated: with a mapping that has no entry at all
(so in particular no entry for the canonical key 候補者氏名), the placeholder
`{{候補者氏名}}` does not vanish — the paragraph is left as literal text, not
replaced by the empty string. -/
theorem C2_counterexample :
    replaceInParagraph ["\x7b\x7b候補者氏名\x7d\x7d様"] [] = ["\x7b\x7b候補者氏名\x7d\x7d様"] ∧
    replaceInParagraph ["\x7b\x7b候補者氏名\x7d\x7d様"] [] ≠ ["様"] ∧
    "候補者氏名" ∈ PLACEHOLDER_KEYS :=
  ⟨by decide, by decide, by decide⟩

/-- Claim C2 as amended: a canonical key that the mapping maps to the empty
string has its placeholder replaced by the empty string, with the
surrounding text preserved (stated for surrounding text free of braces and
zero-width spaces, which would themselves be rewritten or trigger further
matches).  A key with no mapping entry instead leaves its placeholder as
literal text; in the pipeline the completed mapping maps every canonical
key, absent extracted keys to `""`, so there such placeholders do vanish. -/
theorem C2_amended :
    ∀ K, K ∈ PLACEHOLDER_KEYS → ∀ pre post : String,
      (∀ c ∈ pre.data, c ≠ '\x7b' ∧ c ≠ '｛' ∧ c ≠ '｝' ∧ c ≠ zwsChar) →
      (∀ c ∈ post.data, c ≠ '\x7b' ∧ c ≠ '｛' ∧ c ≠ '｝' ∧ c ≠ zwsChar) →
      replaceInParagraph [pre ++ "\x7b\x7b" ++ K ++ "\x7d\x7d" ++ post] [(K, "")] =
        [pre ++ post] := by
  intro K hK pre post hpre hpost
  have hsh := keys_shape K hK
  have hsdata : (pre ++ "\x7b\x7b" ++ K ++ "\x7d\x7d" ++ post).data =
      pre.data ++ ('\x7b' :: '\x7b' :: (K.data ++ ('\x7d' :: '\x7d' :: post.data))) := by
    rw [strDataAppend, strDataAppend, strDataAppend, strDataAppend]
    have hbr1 : ("\x7b\x7b" : String).data = ['\x7b', '\x7b'] := rfl
    have hbr2 : ("\x7d\x7d" : String).data = ['\x7d', '\x7d'] := rfl
    rw [hbr1, hbr2]
    simp
  have hch : ∀ c ∈ (pre ++ "\x7b\x7b" ++ K ++ "\x7d\x7d" ++ post).data,
      c ≠ '｛' ∧ c ≠ '｝' ∧ c ≠ zwsChar := by
    intro c hc
    rw [hsdata] at hc
    simp only [List.mem_append, List.mem_cons] at hc
    rcases hc with hc | hc | hc | hc
    · exact ⟨(hpre c hc).2.1, (hpre c hc).2.2.1, (hpre c hc).2.2.2⟩
    · subst hc; exact ⟨by decide, by decide, by decide⟩
    · subst hc; exact ⟨by decide, by decide, by decide⟩
    · rcases hc with hc | hc | hc
      · exact ⟨(hsh.2.2 c hc).2.2.1, (hsh.2.2 c hc).2.2.2.1, (hsh.2.2 c hc).2.2.2.2⟩
      · subst hc; exact ⟨by decide, by decide, by decide⟩
      · rcases hc with hc | hc
        · subst hc; exact ⟨by decide, by decide, by decide⟩
        · exact ⟨(hpost c hc).2.1, (hpost c hc).2.2.1, (hpost c hc).2.2.2⟩
  have hrtb : replaceTextBlock (pre ++ "\x7b\x7b" ++ K ++ "\x7d\x7d" ++ post) [(K, "")] =
      pre ++ post := by
    apply strEq
    show List.foldl (fun text kv => subKey kv.1.data kv.2.data text)
        (normList (pre ++ "\x7b\x7b" ++ K ++ "\x7d\x7d" ++ post).data) [(K, "")] =
      (pre ++ post).data
    rw [List.foldl_cons, List.foldl_nil, normList_self hch, hsdata]
    show subKey K.data [] _ = _
    rw [subKey_append_no_lb (fun c hc => (hpre c hc).1),
      subKey_match (matchPh_at_key hsh.1), List.nil_append,
      subKey_of_hasMatch_false (hasMatch_false_of_no_lb (fun c hc => (hpost c hc).1)),
      strDataAppend]
  have hne : (pre ++ post) ≠ (pre ++ "\x7b\x7b" ++ K ++ "\x7d\x7d" ++ post) := by
    intro heq
    have hdd := congrArg String.data heq
    rw [hsdata, strDataAppend] at hdd
    have hmem : '\x7b' ∈ pre.data ++ post.data := by
      rw [hdd]
      simp
    rcases List.mem_append.mp hmem with hm | hm
    · exact (hpre _ hm).1 rfl
    · exact (hpost _ hm).1 rfl
  show replaceInParagraph _ _ = _
  simp only [replaceInParagraph, joinedText_single, hrtb]
  rw [if_neg hne]
  simp

/-- Witness for the amended C2: an empty-string mapping entry makes its
placeholder vanish while the surrounding text survives. -/
theorem C2_amended_witness :
    replaceInParagraph ["" ++ "\x7b\x7b" ++ "候補者氏名" ++ "\x7d\x7d" ++ "様"]
        [("候補者氏名", "")] = ["" ++ "様"] :=
  C2_amended "候補者氏名" (by decide) "" "様" (by decide) (by decide)

/-! ## Claim C3 -/

/-- Every paragraph of a table, row-major, cell by cell. -/
def tableParagraphs (t : DocxTable) : List (List String) := t.flatten.flatten

/-- Every paragraph of a header or footer part. -/
def partParagraphs (p : DocxPart) : List (List String) :=
  p.paragraphs ++ (p.tables.map tableParagraphs).flatten

/-- Every paragraph of a section's header and footer. -/
def sectionParagraphs (s : DocxSection) : List (List String) :=
  (s.header.map partParagraphs).getD [] ++ (s.footer.map partParagraphs).getD []

/-- Every paragraph position the filler visits. -/
def allParagraphs (d : Docx) : List (List String) :=
  d.paragraphs ++ (d.tables.map tableParagraphs).flatten ++
    (d.sections.map sectionParagraphs).flatten

theorem mem_tableParagraphs {t : DocxTable} {row : List (List (List String))}
    {cell : List (List String)} {p : List String}
    (hr : row ∈ t) (hc : cell ∈ row) (hp : p ∈ cell) : p ∈ tableParagraphs t :=
  List.mem_flatten.mpr ⟨cell, List.mem_flatten.mpr ⟨row, hr, hc⟩, hp⟩

theorem mem_all_body {d : Docx} {p : List String} (hp : p ∈ d.paragraphs) :
    p ∈ allParagraphs d :=
  List.mem_append.mpr (Or.inl (List.mem_append.mpr (Or.inl hp)))

theorem mem_all_table {d : Docx} {t : DocxTable} {p : List String}
    (ht : t ∈ d.tables) (hp : p ∈ tableParagraphs t) : p ∈ allParagraphs d :=
  List.mem_append.mpr (Or.inl (List.mem_append.mpr (Or.inr
    (List.mem_flatten.mpr ⟨tableParagraphs t, List.mem_map.mpr ⟨t, ht, rfl⟩, hp⟩))))

theorem mem_all_sec {d : Docx} {s : DocxSection} {p : List String}
    (hs : s ∈ d.sections) (hp : p ∈ sectionParagraphs s) : p ∈ allParagraphs d :=
  List.mem_append.mpr (Or.inr
    (List.mem_flatten.mpr ⟨sectionParagraphs s, List.mem_map.mpr ⟨s, hs, rfl⟩, hp⟩))

theorem replaceInTable_self {t : DocxTable} {m : List (String × String)}
    (h : ∀ p ∈ tableParagraphs t, replaceInParagraph p m = p) : replaceInTable t m = t :=
  mapSelf _ t (fun row hr => mapSelf _ row (fun cell hc =>
    mapSelf _ cell (fun p hp => h p (mem_tableParagraphs hr hc hp))))

theorem partFill_self {q : DocxPart} {m : List (String × String)}
    (hall : ∀ p ∈ partParagraphs q, replaceInParagraph p m = p) :
    (⟨q.paragraphs.map (fun p => replaceInParagraph p m),
      q.tables.map (fun t => replaceInTable t m)⟩ : DocxPart) = q := by
  obtain ⟨ps, ts⟩ := q
  simp only [DocxPart.mk.injEq]
  constructor
  · exact mapSelf _ ps (fun p hp =>
      hall p (List.mem_append.mpr (Or.inl hp)))
  · exact mapSelf _ ts (fun t ht => replaceInTable_self (fun p hp =>
      hall p (List.mem_append.mpr (Or.inr
        (List.mem_flatten.mpr ⟨tableParagraphs t, List.mem_map.mpr ⟨t, ht, rfl⟩, hp⟩)))))

theorem fill_frame {doc : Docx} {m : List (String × String)}
    (hall : ∀ runs ∈ allParagraphs doc, replaceInParagraph runs m = runs) :
    fill_docx_placeholders doc m = doc := by
  obtain ⟨ps, ts, ss⟩ := doc
  simp only [fill_docx_placeholders, Docx.mk.injEq]
  refine ⟨?_, ?_, ?_⟩
  · exact mapSelf _ ps (fun p hp => hall p (mem_all_body hp))
  · exact mapSelf _ ts (fun t ht => replaceInTable_self (fun p hp =>
      hall p (mem_all_table ht hp)))
  · apply mapSelf
    intro s hs
    obtain ⟨hd, ft⟩ := s
    simp only [DocxSection.mk.injEq]
    constructor
    · cases hd with
      | none => rfl
      | some hpart =>
        show some _ = some hpart
        apply congrArg some
        exact partFill_self (fun p hp =>
          hall p (mem_all_sec hs (by
            show p ∈ ((some hpart).map partParagraphs).getD [] ++ _
            simp only [Option.map_some', Option.getD_some, List.mem_append]
            exact Or.inl hp)))
    · cases ft with
      | none => rfl
      | some fpart =>
        show some _ = some fpart
        apply congrArg some
        exact partFill_self (fun p hp =>
          hall p (mem_all_sec hs (by
            show p ∈ _ ++ ((some fpart).map partParagraphs).getD []
            simp only [Option.map_some', Option.getD_some, List.mem_append]
            exact Or.inr hp)))

/-- Counterexample to C3 as stated: a paragraph with the single run `a｛b`
contains no placeholder token for any key of the (empty) mapping, yet the
filler rewrites its run: `_normalize_text` turns the full-width brace into
an ASCII brace, the result differs from the original, and the first run is
overwritten. -/
theorem C3_counterexample :
    replaceInParagraph ["a｛b"] [] = ["a\x7bb"] ∧ ("a\x7bb" : String) ≠ "a｛b" :=
  ⟨by decide, by decide⟩

/-- Claim C3 as amended: the filler preserves the paragraph/table/run
structure (every paragraph keeps its run count), and a document in which no
paragraph text contains a full-width brace, a zero-width space, or a
placeholder match for any mapping key is returned entirely unchanged.
Paragraphs containing full-width braces or zero-width spaces can be
rewritten even with no placeholder present, which is what the
counterexample exhibits. -/
theorem C3_frame_amended :
    (∀ (paragraph : List String) (m : List (String × String)),
        (replaceInParagraph paragraph m).length = paragraph.length)
    ∧ (∀ (doc : Docx) (m : List (String × String)),
        (∀ runs, runs ∈ allParagraphs doc →
          (∀ c ∈ (joinedText runs).data, c ≠ '｛' ∧ c ≠ '｝' ∧ c ≠ zwsChar) ∧
          ∀ kv ∈ m, hasMatch kv.1.data (joinedText runs).data = false) →
        fill_docx_placeholders doc m = doc) := by
  constructor
  · intro paragraph m
    cases paragraph with
    | nil => rfl
    | cons r0 rest =>
      simp only [replaceInParagraph]
      split <;> simp
  · intro doc m h
    exact fill_frame (fun runs hr =>
      replaceInParagraph_self (rtb_self (h runs hr).1 (h runs hr).2))

/-- Witness for the amended C3 on a document with a body paragraph, a table
paragraph and a header paragraph, none containing placeholders. -/
theorem C3_frame_witness :
    fill_docx_placeholders
        ⟨[["abc"]], [[[[["t"]]]]], [⟨some ⟨[["h"]], []⟩, none⟩]⟩
        [("候補者氏名", "山田太郎")] =
      ⟨[["abc"]], [[[[["t"]]]]], [⟨some ⟨[["h"]], []⟩, none⟩]⟩ :=
  C3_frame_amended.2 _ _ (by decide)

/-! ## Lemmas: Python dicts -/

/-- Left-biased choice on options. -/
def optOr {α : Type} : Option α → Option α → Option α
  | some x, _ => some x
  | none, y => y

theorem optOr_none_right {α : Type} (x : Option α) : optOr x none = x := by
  cases x <;> rfl

theorem optOr_assoc {α : Type} (a b c : Option α) :
    optOr (optOr a b) c = optOr a (optOr b c) := by
  cases a <;> rfl

theorem find?_append (p : (String × String) → Bool) (l1 l2 : PyDict) :
    (l1 ++ l2).find? p = optOr (l1.find? p) (l2.find? p) := by
  induction l1 with
  | nil => rfl
  | cons a l ih =>
    simp only [List.cons_append, List.find?_cons]
    cases hpa : p a
    · simp only [hpa, ih]
    · rfl

theorem find?_map_replace_ne {k v k' : String} (hne : k' ≠ k) :
    ∀ d : PyDict,
      (d.map (fun p => if p.1 == k then (k, v) else p)).find? (fun p => p.1 == k') =
        d.find? (fun p => p.1 == k') := by
  intro d
  induction d with
  | nil => rfl
  | cons q d ih =>
    simp only [List.map_cons, List.find?_cons]
    by_cases hq : q.1 = k
    · rw [if_pos (by simp [hq])]
      have h1 : ((k, v).1 == k') = false := by simp [Ne.symm hne]
      have h2 : (q.1 == k') = false := by simp [hq, Ne.symm hne]
      simp only [h1, h2, ih]
    · rw [if_neg (by simp [hq])]
      cases hq' : (q.1 == k') <;> simp only [hq', ih]

theorem find?_map_replace_self {k v : String} :
    ∀ d : PyDict, d.any (fun p => p.1 == k) = true →
      (d.map (fun p => if p.1 == k then (k, v) else p)).find? (fun p => p.1 == k) =
        some (k, v) := by
  intro d
  induction d with
  | nil => intro h; simp at h
  | cons q d ih =>
    intro h
    simp only [List.map_cons, List.find?_cons]
    by_cases hq : q.1 = k
    · rw [if_pos (by simp [hq])]
      simp
    · rw [if_neg (by simp [hq])]
      have h' : d.any (fun p => p.1 == k) = true := by
        simp only [List.any_cons, Bool.or_eq_true] at h
        rcases h with h | h
        · exact absurd (by simpa using h) hq
        · exact h
      have hqf : (q.1 == k) = false := by simp [hq]
      simp only [hqf]
      exact ih h'

theorem find?_append_single_self {k v : String} (d : PyDict)
    (h : d.any (fun p => p.1 == k) = false) :
    (d ++ [(k, v)]).find? (fun p => p.1 == k) = some (k, v) := by
  rw [find?_append]
  have hd : d.find? (fun p => p.1 == k) = none := by
    apply List.find?_eq_none.mpr
    intro x hx hbx
    have : d.any (fun p => p.1 == k) = true := List.any_eq_true.mpr ⟨x, hx, hbx⟩
    rw [h] at this
    exact Bool.false_ne_true this
  rw [hd]
  simp [optOr]

theorem find?_append_single_ne {k v k' : String} (hne : k' ≠ k) (d : PyDict) :
    (d ++ [(k, v)]).find? (fun p => p.1 == k') = d.find? (fun p => p.1 == k') := by
  rw [find?_append]
  have hsingle : (([(k, v)] : PyDict).find? (fun p => p.1 == k')) = none := by
    have hkk : (k == k') = false := by simp [Ne.symm hne]
    simp [List.find?, hkk]
  rw [hsingle, optOr_none_right]

theorem dictGet_insert (d : PyDict) (k v k' : String) :
    dictGet (dictInsert d k v) k' = if k' = k then some v else dictGet d k' := by
  unfold dictInsert dictGet
  by_cases hany : d.any (fun p => p.1 == k) = true
  · rw [if_pos hany]
    by_cases hk : k' = k
    · subst hk
      rw [find?_map_replace_self d hany]
      simp
    · rw [find?_map_replace_ne hk d, if_neg hk]
  · rw [if_neg hany]
    rw [Bool.not_eq_true] at hany
    by_cases hk : k' = k
    · subst hk
      rw [find?_append_single_self d hany]
      simp
    · rw [find?_append_single_ne hk d, if_neg hk]

theorem mem_dictInsert {d : PyDict} {q : String × String} {k v : String}
    (h : q ∈ dictInsert d k v) : q ∈ d ∨ q = (k, v) := by
  unfold dictInsert at h
  split_ifs at h
  · obtain ⟨p, hp, hq⟩ := List.mem_map.mp h
    by_cases hpk : p.1 = k
    · right; rw [← hq]; simp [hpk]
    · left
      rw [← hq]
      simpa [hpk] using hp
  · rcases List.mem_append.mp h with h | h
    · left; exact h
    · right; simpa using h

theorem dictStep_none {α : Type} {f : α → Option (String × String)} {d : PyDict} {x : α}
    (h : f x = none) : dictStep f d x = d := by
  simp only [dictStep, h]

theorem dictStep_some {α : Type} {f : α → Option (String × String)} {d : PyDict} {x : α}
    {kv : String × String} (h : f x = some kv) : dictStep f d x = dictInsert d kv.1 kv.2 := by
  simp only [dictStep, h]

theorem buildDict_invariant {α : Type} (f : α → Option (String × String))
    (P : String × String → Prop)
    (hf : ∀ x k v, f x = some (k, v) → P (k, v)) :
    ∀ (xs : List α) (d : PyDict), (∀ q ∈ d, P q) →
      ∀ q ∈ xs.foldl (dictStep f) d, P q := by
  intro xs
  induction xs with
  | nil => intro d hd q hq; exact hd q hq
  | cons x xs ih =>
    intro d hd q hq
    simp only [List.foldl_cons] at hq
    rcases hfx : f x with _ | kv
    · rw [dictStep_none hfx] at hq
      exact ih d hd q hq
    · rw [dictStep_some hfx] at hq
      refine ih _ ?_ q hq
      intro q' hq'
      rcases mem_dictInsert hq' with hh | hh
      · exact hd q' hh
      · rw [hh]
        exact hf x kv.1 kv.2 hfx

/-- Spec-side description of duplicate handling: the value of the LAST
accepted pair for `k` in iteration order ("each valid row/line
unconditionally overwrites, so the LAST occurrence of a duplicate canonical
key wins"). -/
def lastVal (ps : List (String × String)) (k : String) : Option String :=
  (ps.reverse.find? (fun p => p.1 == k)).map (fun p => p.2)

theorem dictGet_foldl {α : Type} (f : α → Option (String × String)) :
    ∀ (xs : List α) (d : PyDict) (k : String),
      dictGet (xs.foldl (dictStep f) d) k =
        optOr (lastVal (xs.filterMap f) k) (dictGet d k) := by
  intro xs
  induction xs with
  | nil => intro d k; rfl
  | cons x xs ih =>
    intro d k
    simp only [List.foldl_cons]
    rcases hfx : f x with _ | kv
    · rw [dictStep_none hfx, ih]
      simp [List.filterMap_cons, hfx]
    · rw [dictStep_some hfx, ih]
      have hfm : List.filterMap f (x :: xs) = kv :: xs.filterMap f := by
        simp [List.filterMap_cons, hfx]
      rw [hfm]
      have hlv : lastVal (kv :: xs.filterMap f) k =
          optOr (lastVal (xs.filterMap f) k)
            (if (kv.1 == k) then some kv.2 else none) := by
        unfold lastVal
        rw [List.reverse_cons, find?_append]
        cases hkv : (kv.1 == k)
        · simp [List.find?, hkv, optOr_none_right]
        · cases hfd : (xs.filterMap f).reverse.find? (fun p => p.1 == k) <;>
            simp [List.find?, hkv, hfd, optOr]
      rw [hlv, dictGet_insert, optOr_assoc]
      congr 1
      by_cases hk : k = kv.1
      · simp [hk, optOr]
      · have hkb : (kv.1 == k) = false := by
          simp
          intro hc
          exact hk hc.symm
        simp [hkb, hk, optOr]

theorem dictGet_buildDict {α : Type} (f : α → Option (String × String)) (xs : List α)
    (k : String) : dictGet (buildDict f xs) k = lastVal (xs.filterMap f) k := by
  unfold buildDict
  rw [dictGet_foldl]
  simp [dictGet, optOr_none_right]

/-! ## Lemmas: the extractor loop bodies -/

theorem excelRowPair_ok : ∀ (row : List (Option String)) (k v : String),
    excelRowPair row = some (k, v) → k ∈ PLACEHOLDER_KEYS ∧ pyStrip v = v := by
  intro row k v h
  cases row with
  | nil => exact absurd h (by simp [excelRowPair])
  | cons key rest =>
    cases key with
    | none => exact absurd h (by simp [excelRowPair])
    | some ks =>
      cases rest with
      | nil => exact absurd h (by simp [excelRowPair])
      | cons c0 rest' =>
        cases c0 with
        | none => exact absurd h (by simp [excelRowPair])
        | some vs =>
          simp only [excelRowPair] at h
          split_ifs at h with h1 h2
          have hh : to_template_key ks = k ∧ pyStrip vs = v := by
            simpa [Prod.ext_iff] using h
          exact ⟨hh.1 ▸ h2, hh.2 ▸ pyStrip_idem vs⟩

theorem pdfLinePair_ok : ∀ (line : List Char) (k v : String),
    pdfLinePair line = some (k, v) → k ∈ PLACEHOLDER_KEYS ∧ pyStrip v = v := by
  intro line k v h
  unfold pdfLinePair at h
  split at h
  · exact absurd h (by simp)
  · split at h
    · exact absurd h (by simp)
    · next rawK rawV heq =>
      split_ifs at h with hg
      have hh : to_template_key ⟨rawK⟩ = k ∧ pyStrip ⟨rawV⟩ = v := by
        simpa [Prod.ext_iff] using h
      exact ⟨hh.1 ▸ hg.1, hh.2 ▸ pyStrip_idem _⟩

/-! ## Claim C5 -/

/-- Claim C5 (closed-set guarantee): every key of a mapping returned by
either extractor is a canonical key — the guard `if tkey in
PLACEHOLDER_KEYS` precedes every insertion, so no other key is ever
introduced. -/
theorem C5_closed_set :
    (∀ (rows : List (List (Option String))) (k v : String),
        (k, v) ∈ extract_from_excel rows → k ∈ PLACEHOLDER_KEYS)
    ∧ (∀ (text : String) (k v : String),
        (k, v) ∈ extract_from_pdf text → k ∈ PLACEHOLDER_KEYS) := by
  constructor
  · intro rows k v h
    exact buildDict_invariant excelRowPair (fun q => q.1 ∈ PLACEHOLDER_KEYS)
      (fun x a b hx => (excelRowPair_ok x a b hx).1) rows [] (by simp) (k, v) h
  · intro text k v h
    exact buildDict_invariant pdfLinePair (fun q => q.1 ∈ PLACEHOLDER_KEYS)
      (fun x a b hx => (pdfLinePair_ok x a b hx).1) (splitLines text.data) [] (by simp) (k, v) h

/-- Witness for C5 at a one-row spreadsheet. -/
theorem C5_closed_set_witness : "候補者氏名" ∈ PLACEHOLDER_KEYS :=
  C5_closed_set.1 [[some "候補者氏名", some "山田太郎"]] "候補者氏名" "山田太郎" (by decide)

/-! ## Claim C4 -/

/-- Counterexample to C4 as stated: a spreadsheet row whose value cell is a
single space is truthy in Python, so it passes the `if key and val` guard
before stripping; the stored value `str(val).strip()` is then the empty
string, which the extractor does map the canonical key to. -/
theorem C4_counterexample :
    dictGet (extract_from_excel [[some "候補者氏名", some " "]]) "候補者氏名" = some "" := by
  decide

/-- Claim C4 as amended: every value in an extractor's returned mapping is a
trimmed string (a fixed point of strip), and values that are falsy (empty or
`None`) before trimming are never inserted; but a whitespace-only raw value
is truthy before trimming and is inserted as the empty string, so the
returned mapping can map a key to `""`. -/
theorem C4_trimmed_values :
    (∀ (rows : List (List (Option String))) (k v : String),
        (k, v) ∈ extract_from_excel rows → pyStrip v = v)
    ∧ (∀ (text : String) (k v : String),
        (k, v) ∈ extract_from_pdf text → pyStrip v = v) := by
  constructor
  · intro rows k v h
    exact buildDict_invariant excelRowPair (fun q => pyStrip q.2 = q.2)
      (fun x a b hx => (excelRowPair_ok x a b hx).2) rows [] (by simp) (k, v) h
  · intro text k v h
    exact buildDict_invariant pdfLinePair (fun q => pyStrip q.2 = q.2)
      (fun x a b hx => (pdfLinePair_ok x a b hx).2) (splitLines text.data) [] (by simp) (k, v) h

/-- Witness for the amended C4: an extracted value with surrounding blanks
in the cell is stored stripped. -/
theorem C4_trimmed_values_witness : pyStrip "山田太郎" = "山田太郎" :=
  C4_trimmed_values.1 [[some "候補者氏名", some " 山田太郎 "]] "候補者氏名" "山田太郎"
    (by decide)

/-! ## Claim C8 -/

/-- Claim C8: both extractor loops overwrite unconditionally, so looking up
a key in the returned mapping yields the value of the LAST accepted
row/line for that key in iteration order (`lastVal` searches the accepted
pairs from the end). -/
theorem C8_last_wins :
    (∀ (rows : List (List (Option String))) (k : String),
        dictGet (extract_from_excel rows) k = lastVal (rows.filterMap excelRowPair) k)
    ∧ (∀ (text : String) (k : String),
        dictGet (extract_from_pdf text) k =
          lastVal ((splitLines text.data).filterMap pdfLinePair) k) := by
  constructor
  · intro rows k
    exact dictGet_buildDict excelRowPair rows k
  · intro text k
    exact dictGet_buildDict pdfLinePair (splitLines text.data) k

/-! ## Claim C9 -/

/-- Claim C9: an unrecognized file extension performs no extraction;
the completed canonical mapping handed to the filler is exactly the
canonical keys, each mapped to the empty string, and processing proceeds
with those blanks rather than failing. -/
theorem C9_unrecognized :
    ∀ (suffix : String) (rows : List (List (Option String))) (text : String),
      suffix ∉ ([".xlsx", ".xlsm", ".pdf"] : List String) →
      completedMapping (processExtracted suffix rows text) =
        PLACEHOLDER_KEYS.map (fun k => (k, "")) := by
  intro suffix rows text h
  have h1 : suffix ∉ ([".xlsx", ".xlsm"] : List String) := by
    intro hm
    apply h
    simp only [List.mem_cons, List.mem_singleton] at hm ⊢
    tauto
  have h2 : suffix ≠ ".pdf" := by
    intro hm
    apply h
    simp [hm]
  unfold processExtracted
  rw [if_neg h1, if_neg h2]
  unfold completedMapping
  apply List.map_congr_left
  intro k _
  simp [dictGet]

/-- Witness for C9 at the extension `.txt`. -/
theorem C9_unrecognized_witness :
    completedMapping (processExtracted ".txt" [] "") =
      PLACEHOLDER_KEYS.map (fun k => (k, "")) :=
  C9_unrecognized ".txt" [] "" (by decide)

/-! ## Claim C10 -/

theorem filter_length_split {α : Type} (p : α → Bool) (l : List α) :
    (l.filter p).length + (l.filter (fun a => !(p a))).length = l.length := by
  induction l with
  | nil => rfl
  | cons a l ih =>
    cases hpa : p a <;> simp [List.filter_cons, hpa, ← ih] <;> omega

/-- Claim C10: over the completed canonical mapping, the report's
`filled_count` (keys with a truthy value) plus the length of its
`missing_keys` (keys with a falsy value) is the number of canonical keys,
41; the two tallies partition the canonical keys (which are distinct), and
`missing_keys` lists its keys in canonical key-set order — it is the
canonical list filtered to the keys whose completed value is empty. -/
theorem C10_report :
    ∀ extracted : PyDict,
      filled_count (completedMapping extracted) +
          (missing_keys (completedMapping extracted)).length = PLACEHOLDER_KEYS.length
      ∧ PLACEHOLDER_KEYS.length = 41
      ∧ missing_keys (completedMapping extracted) =
          PLACEHOLDER_KEYS.filter (fun k => (dictGet extracted k).getD "" == "")
      ∧ filled_count (completedMapping extracted) =
          (PLACEHOLDER_KEYS.filter (fun k => !((dictGet extracted k).getD "" == ""))).length
      ∧ PLACEHOLDER_KEYS.Nodup := by
  intro extracted
  have hmk : ∀ (p : (String × String) → Bool),
      (completedMapping extracted).filter p =
        (PLACEHOLDER_KEYS.filter (fun k => p (k, (dictGet extracted k).getD ""))).map
          (fun k => (k, (dictGet extracted k).getD "")) := by
    intro p
    unfold completedMapping
    rw [List.filter_map]
    rfl
  have hmiss : missing_keys (completedMapping extracted) =
      PLACEHOLDER_KEYS.filter (fun k => (dictGet extracted k).getD "" == "") := by
    unfold missing_keys
    rw [hmk, List.map_map]
    exact mapSelf _ _ (fun k _ => rfl)
  have hfill : filled_count (completedMapping extracted) =
      (PLACEHOLDER_KEYS.filter (fun k => !((dictGet extracted k).getD "" == ""))).length := by
    unfold filled_count
    rw [hmk, List.length_map]
  refine ⟨?_, by decide, hmiss, hfill, by decide⟩
  rw [hmiss, hfill]
  have := filter_length_split (fun k => !((dictGet extracted k).getD "" == ""))
    PLACEHOLDER_KEYS
  simpa [Bool.not_not] using this
